import Mathlib

/-!
Verification of the `agreed-time` backend (Rust, axum + sqlx) against its
natural-language specification.

The development is a shallow embedding: the pure interval-merge algorithm
(`merge_time_ranges` in `src/backend/src/handlers/events.rs`) becomes a Lean
function on lists; the stateful handlers (`submit_availability`,
`update_participant`, `fetch_event_results_data`, `check_events_status`) become
pure functions from an explicit database state (lists of rows mirroring the
`events`, `event_slots`, `participants` and `availabilities` tables) to an
`Except AppError` result carrying the updated state; the in-memory rate limiter
(`RateLimitService::call` in `src/backend/src/middleware.rs`) becomes a step
function on its per-client map.  Timestamps (`DateTime<Utc>`, `Instant`) are
modelled as integers / naturals with the same order structure.
-/

namespace AgreedTime

/-- Rust struct `TimeRangeRequest` with `start_at` and `end_at`: a half-open time
range submitted by a client. -/
structure TimeRangeRequest where
  start_at : Int
  end_at : Int
deriving DecidableEq, Repr

/-- The comparator used by `ranges.sort_by(|a, b| a.start_at.cmp(&b.start_at))`:
order by `start_at` only. -/
def startLE (a b : TimeRangeRequest) : Prop := a.start_at ≤ b.start_at

instance : DecidableRel startLE :=
  fun a b => inferInstanceAs (Decidable (a.start_at ≤ b.start_at))

instance : IsTotal TimeRangeRequest startLE :=
  ⟨fun a b => le_total a.start_at b.start_at⟩

instance : IsTrans TimeRangeRequest startLE :=
  ⟨fun _ _ _ h h' => le_trans h h'⟩

/-- The sweep loop of `merge_time_ranges`: `current` is the accumulator; for
each `next` range of the (sorted) remainder, if `next.start_at <= current.end_at`
the accumulator is extended (`current.end_at = next.end_at` when
`next.end_at > current.end_at`), otherwise `current` is flushed and `next`
becomes the new accumulator; the final accumulator is flushed at the end. -/
def mergeLoop (current : TimeRangeRequest) :
    List TimeRangeRequest → List TimeRangeRequest
  | [] => [current]
  | next :: rest =>
    if next.start_at ≤ current.end_at then
      if current.end_at < next.end_at then
        mergeLoop ⟨current.start_at, next.end_at⟩ rest
      else
        mergeLoop current rest
    else
      current :: mergeLoop next rest

/-- Function `merge_time_ranges` (events.rs lines 23–45): empty input returns empty;
otherwise the ranges are stably sorted by `start_at` ascending and swept with
`mergeLoop` starting from the first sorted range.  Rust's `sort_by` is a stable
sort; `List.insertionSort` is likewise stable, so the model picks the same
order on ties. -/
def merge_time_ranges (ranges : List TimeRangeRequest) : List TimeRangeRequest :=
  match List.insertionSort startLE ranges with
  | [] => []
  | c :: rest => mergeLoop c rest

/-- A time instant `t` is covered by the (half-open) range `r`. -/
def covers (r : TimeRangeRequest) (t : Int) : Prop :=
  r.start_at ≤ t ∧ t < r.end_at

instance (r : TimeRangeRequest) (t : Int) : Decidable (covers r t) :=
  inferInstanceAs (Decidable (_ ∧ _))

/-- A time instant is covered by some range of the list. -/
def coversList (l : List TimeRangeRequest) (t : Int) : Prop :=
  ∃ r ∈ l, covers r t

instance (l : List TimeRangeRequest) (t : Int) : Decidable (coversList l t) :=
  List.decidableBEx _ l

/-- Pairwise-consecutive separation: each range's start is strictly greater
than the previous range's end (non-overlapping and non-adjacent). -/
def Separated (l : List TimeRangeRequest) : Prop :=
  List.Chain' (fun a b => a.end_at < b.start_at) l

/-- Boolean check of `Separated`, used to evaluate it on concrete lists. -/
def separatedB : List TimeRangeRequest → Bool
  | [] => true
  | [_] => true
  | a :: b :: l => decide (a.end_at < b.start_at) && separatedB (b :: l)

theorem separatedB_iff : ∀ l : List TimeRangeRequest,
    separatedB l = true ↔ Separated l
  | [] => by simp [separatedB, Separated]
  | [a] => by simp [separatedB, Separated]
  | a :: b :: l => by
    rw [separatedB, Bool.and_eq_true, decide_eq_true_iff, separatedB_iff (b :: l)]
    unfold Separated
    rw [List.chain'_cons]

instance (l : List TimeRangeRequest) : Decidable (Separated l) :=
  decidable_of_iff _ (separatedB_iff l)

/-- Every range of the list is non-degenerate: `start_at < end_at`. -/
def ValidRanges (l : List TimeRangeRequest) : Prop :=
  ∀ r ∈ l, r.start_at < r.end_at

instance (l : List TimeRangeRequest) : Decidable (ValidRanges l) :=
  List.decidableBAll _ l

theorem coversList_nil (t : Int) : ¬ coversList [] t := by
  simp [coversList]

theorem coversList_cons {r : TimeRangeRequest} {l : List TimeRangeRequest}
    {t : Int} : coversList (r :: l) t ↔ covers r t ∨ coversList l t := by
  simp [coversList]

theorem coversList_of_perm {l₁ l₂ : List TimeRangeRequest} (h : l₁.Perm l₂)
    (t : Int) : coversList l₁ t ↔ coversList l₂ t := by
  unfold coversList
  constructor
  · rintro ⟨r, hr, hc⟩
    exact ⟨r, h.mem_iff.mp hr, hc⟩
  · rintro ⟨r, hr, hc⟩
    exact ⟨r, h.mem_iff.mpr hr, hc⟩

theorem mergeLoop_covers (l : List TimeRangeRequest) :
    ∀ (c : TimeRangeRequest), (c :: l).Pairwise startLE →
      ∀ t, coversList (mergeLoop c l) t ↔ covers c t ∨ coversList l t := by
  induction l with
  | nil =>
    intro c _ t
    simp [mergeLoop, coversList_cons, coversList_nil]
  | cons next rest ih =>
    intro c hs t
    obtain ⟨hc, hrest⟩ := List.pairwise_cons.mp hs
    have hcn : c.start_at ≤ next.start_at := hc next (List.mem_cons_self _ _)
    by_cases h1 : next.start_at ≤ c.end_at
    · by_cases h2 : c.end_at < next.end_at
      · rw [mergeLoop, if_pos h1, if_pos h2]
        have hs' : ((⟨c.start_at, next.end_at⟩ : TimeRangeRequest) :: rest).Pairwise
            startLE := by
          refine List.pairwise_cons.mpr ⟨?_, (List.pairwise_cons.mp hrest).2⟩
          intro r hr
          exact le_trans hcn ((List.pairwise_cons.mp hrest).1 r hr)
        rw [ih _ hs' t, coversList_cons]
        unfold covers
        constructor
        · rintro (⟨hl, hu⟩ | hrest')
          · rcases lt_or_le t c.end_at with ht | ht
            · exact Or.inl ⟨hl, ht⟩
            · exact Or.inr (Or.inl ⟨le_trans h1 ht, hu⟩)
          · exact Or.inr (Or.inr hrest')
        · rintro (⟨hl, hu⟩ | ⟨hl, hu⟩ | hrest')
          · exact Or.inl ⟨hl, lt_trans hu h2⟩
          · exact Or.inl ⟨le_trans hcn hl, hu⟩
          · exact Or.inr hrest'
      · rw [mergeLoop, if_pos h1, if_neg h2]
        have hs' : (c :: rest).Pairwise startLE := by
          refine List.pairwise_cons.mpr ⟨?_, (List.pairwise_cons.mp hrest).2⟩
          intro r hr
          exact le_trans hcn ((List.pairwise_cons.mp hrest).1 r hr)
        rw [ih _ hs' t, coversList_cons]
        unfold covers
        constructor
        · rintro (h | h)
          · exact Or.inl h
          · exact Or.inr (Or.inr h)
        · rintro (h | ⟨hl, hu⟩ | h)
          · exact Or.inl h
          · exact Or.inl ⟨le_trans hcn hl, lt_of_lt_of_le hu (not_lt.mp h2)⟩
          · exact Or.inr h
    · rw [mergeLoop, if_neg h1]
      rw [coversList_cons, ih _ hrest t, coversList_cons]

theorem mergeLoop_head (l : List TimeRangeRequest) :
    ∀ c : TimeRangeRequest, ∃ e rest',
      mergeLoop c l = (⟨c.start_at, e⟩ : TimeRangeRequest) :: rest' ∧
        c.end_at ≤ e := by
  induction l with
  | nil =>
    intro c
    exact ⟨c.end_at, [], rfl, le_refl _⟩
  | cons next rest ih =>
    intro c
    by_cases h1 : next.start_at ≤ c.end_at
    · by_cases h2 : c.end_at < next.end_at
      · obtain ⟨e, r', he, hle⟩ := ih ⟨c.start_at, next.end_at⟩
        refine ⟨e, r', ?_, le_trans (le_of_lt h2) hle⟩
        rw [mergeLoop, if_pos h1, if_pos h2, he]
      · obtain ⟨e, r', he, hle⟩ := ih c
        refine ⟨e, r', ?_, hle⟩
        rw [mergeLoop, if_pos h1, if_neg h2, he]
    · exact ⟨c.end_at, mergeLoop next rest, by rw [mergeLoop, if_neg h1], le_refl _⟩

theorem mergeLoop_separated (l : List TimeRangeRequest) :
    ∀ c : TimeRangeRequest, (c :: l).Pairwise startLE →
      Separated (mergeLoop c l) := by
  induction l with
  | nil =>
    intro c _
    simp [mergeLoop, Separated]
  | cons next rest ih =>
    intro c hs
    obtain ⟨hc, hrest⟩ := List.pairwise_cons.mp hs
    have hcn : c.start_at ≤ next.start_at := hc next (List.mem_cons_self _ _)
    by_cases h1 : next.start_at ≤ c.end_at
    · by_cases h2 : c.end_at < next.end_at
      · rw [mergeLoop, if_pos h1, if_pos h2]
        refine ih _ (List.pairwise_cons.mpr ⟨?_, (List.pairwise_cons.mp hrest).2⟩)
        intro r hr
        exact le_trans hcn ((List.pairwise_cons.mp hrest).1 r hr)
      · rw [mergeLoop, if_pos h1, if_neg h2]
        refine ih _ (List.pairwise_cons.mpr ⟨?_, (List.pairwise_cons.mp hrest).2⟩)
        intro r hr
        exact le_trans hcn ((List.pairwise_cons.mp hrest).1 r hr)
    · rw [mergeLoop, if_neg h1]
      have hsep := ih next hrest
      obtain ⟨e, r', he, _⟩ := mergeLoop_head rest next
      rw [he] at hsep ⊢
      exact List.chain'_cons.mpr ⟨not_le.mp h1, hsep⟩

theorem mergeLoop_valid (l : List TimeRangeRequest) :
    ∀ c : TimeRangeRequest, c.start_at < c.end_at → ValidRanges l →
      ValidRanges (mergeLoop c l) := by
  induction l with
  | nil =>
    intro c hcv _
    intro r hr
    rw [mergeLoop] at hr
    simp only [List.mem_singleton] at hr
    exact hr ▸ hcv
  | cons next rest ih =>
    intro c hcv hv
    have hnext : next.start_at < next.end_at := hv next (List.mem_cons_self _ _)
    have hrest : ValidRanges rest := fun r hr => hv r (List.mem_cons_of_mem _ hr)
    by_cases h1 : next.start_at ≤ c.end_at
    · by_cases h2 : c.end_at < next.end_at
      · rw [mergeLoop, if_pos h1, if_pos h2]
        exact ih _ (lt_trans hcv h2) hrest
      · rw [mergeLoop, if_pos h1, if_neg h2]
        exact ih _ hcv hrest
    · rw [mergeLoop, if_neg h1]
      intro r hr
      rcases List.mem_cons.mp hr with rfl | hr'
      · exact hcv
      · exact ih _ hnext hrest r hr'

theorem merge_covers (l : List TimeRangeRequest) (t : Int) :
    coversList (merge_time_ranges l) t ↔ coversList l t := by
  unfold merge_time_ranges
  have hperm := List.perm_insertionSort startLE l
  have hsorted := List.sorted_insertionSort startLE l
  rcases h : List.insertionSort startLE l with _ | ⟨c, rest⟩
  · rw [← coversList_of_perm hperm t, h]
  · rw [h] at hsorted
    rw [mergeLoop_covers rest c hsorted t, ← coversList_cons,
      ← h, coversList_of_perm hperm t]

theorem merge_separated (l : List TimeRangeRequest) :
    Separated (merge_time_ranges l) := by
  unfold merge_time_ranges
  have hsorted := List.sorted_insertionSort startLE l
  rcases h : List.insertionSort startLE l with _ | ⟨c, rest⟩
  · exact List.chain'_nil
  · rw [h] at hsorted
    exact mergeLoop_separated rest c hsorted

theorem merge_valid (l : List TimeRangeRequest) (hv : ValidRanges l) :
    ValidRanges (merge_time_ranges l) := by
  unfold merge_time_ranges
  have hperm := List.perm_insertionSort startLE l
  have hv' : ValidRanges (List.insertionSort startLE l) := by
    intro r hr
    exact hv r (hperm.mem_iff.mp hr)
  rcases h : List.insertionSort startLE l with _ | ⟨c, rest⟩
  · intro r hr
    exact absurd hr (List.not_mem_nil r)
  · rw [h] at hv'
    exact mergeLoop_valid rest c (hv' c (List.mem_cons_self _ _))
      (fun r hr => hv' r (List.mem_cons_of_mem _ hr))

theorem chain_lt_start {a : TimeRangeRequest} {l : List TimeRangeRequest}
    (h : Separated (a :: l)) (hv : ValidRanges (a :: l)) :
    ∀ r ∈ l, a.end_at < r.start_at := by
  induction l generalizing a with
  | nil =>
    intro r hr
    exact absurd hr (List.not_mem_nil r)
  | cons b m ih =>
    intro r hr
    have hab : a.end_at < b.start_at := (List.chain'_cons.mp h).1
    rcases List.mem_cons.mp hr with rfl | hr'
    · exact hab
    · have hb : b.start_at < b.end_at := hv b (List.mem_cons_of_mem _ (List.mem_cons_self _ _))
      have hbr : b.end_at < r.start_at :=
        ih (List.chain'_cons.mp h).2
          (fun x hx => hv x (List.mem_cons_of_mem _ hx)) r hr'
      omega

theorem separated_min_start {a : TimeRangeRequest} {l : List TimeRangeRequest}
    (h : Separated (a :: l)) (hv : ValidRanges (a :: l)) {t : Int}
    (hc : coversList (a :: l) t) : a.start_at ≤ t := by
  rcases coversList_cons.mp hc with ⟨h1, _⟩ | ⟨r, hr, h1, _⟩
  · exact h1
  · have h2 : a.end_at < r.start_at := chain_lt_start h hv r hr
    have h3 : a.start_at < a.end_at := hv a (List.mem_cons_self _ _)
    omega

theorem separated_end_not_lt {a b : TimeRangeRequest}
    {l₁ l₂ : List TimeRangeRequest}
    (h₁ : Separated (a :: l₁)) (hv₁ : ValidRanges (a :: l₁))
    (hcov : ∀ t, coversList (a :: l₁) t ↔ coversList (b :: l₂) t)
    (hstart : b.start_at = a.start_at) : ¬ a.end_at < b.end_at := by
  intro hlt
  have hav : a.start_at < a.end_at := hv₁ a (List.mem_cons_self _ _)
  have hb : coversList (b :: l₂) a.end_at :=
    coversList_cons.mpr (Or.inl ⟨by omega, hlt⟩)
  rcases coversList_cons.mp ((hcov _).mpr hb) with ⟨_, hu⟩ | ⟨r, hr, hl', _⟩
  · exact absurd hu (lt_irrefl _)
  · have h2 : a.end_at < r.start_at := chain_lt_start h₁ hv₁ r hr
    omega

/-- Two sorted, pairwise non-overlapping, non-adjacent lists of non-degenerate
ranges covering the same set of time instants are equal: the separated
decomposition of a union of ranges is unique. -/
theorem separated_coverage_unique :
    ∀ l₁ l₂ : List TimeRangeRequest, Separated l₁ → Separated l₂ →
      ValidRanges l₁ → ValidRanges l₂ →
      (∀ t, coversList l₁ t ↔ coversList l₂ t) → l₁ = l₂ := by
  intro l₁
  induction l₁ with
  | nil =>
    intro l₂ _ _ _ hv₂ hcov
    cases l₂ with
    | nil => rfl
    | cons b m =>
      have hb : b.start_at < b.end_at := hv₂ b (List.mem_cons_self _ _)
      have hcb : coversList (b :: m) b.start_at :=
        coversList_cons.mpr (Or.inl ⟨le_refl _, hb⟩)
      exact absurd ((hcov _).mpr hcb) (coversList_nil _)
  | cons a l₁ ih =>
    intro l₂ h₁ h₂ hv₁ hv₂ hcov
    cases l₂ with
    | nil =>
      have ha : a.start_at < a.end_at := hv₁ a (List.mem_cons_self _ _)
      have hca : coversList (a :: l₁) a.start_at :=
        coversList_cons.mpr (Or.inl ⟨le_refl _, ha⟩)
      exact absurd ((hcov _).mp hca) (coversList_nil _)
    | cons b l₂ =>
      have ha : a.start_at < a.end_at := hv₁ a (List.mem_cons_self _ _)
      have hb : b.start_at < b.end_at := hv₂ b (List.mem_cons_self _ _)
      have hsab : a.start_at ≤ b.start_at :=
        separated_min_start h₁ hv₁
          ((hcov _).mpr (coversList_cons.mpr (Or.inl ⟨le_refl _, hb⟩)))
      have hsba : b.start_at ≤ a.start_at :=
        separated_min_start h₂ hv₂
          ((hcov _).mp (coversList_cons.mpr (Or.inl ⟨le_refl _, ha⟩)))
      have hstart : a.start_at = b.start_at := le_antisymm hsab hsba
      have hend₁ : ¬ a.end_at < b.end_at :=
        separated_end_not_lt h₁ hv₁ hcov hstart.symm
      have hend₂ : ¬ b.end_at < a.end_at :=
        separated_end_not_lt h₂ hv₂ (fun t => (hcov t).symm) hstart
      have hend : a.end_at = b.end_at := by omega
      have hab : a = b := by
        cases a
        cases b
        simp_all
      subst hab
      have hv₁' : ValidRanges l₁ := fun r hr => hv₁ r (List.mem_cons_of_mem _ hr)
      have hv₂' : ValidRanges l₂ := fun r hr => hv₂ r (List.mem_cons_of_mem _ hr)
      have hcovtail : ∀ t, coversList l₁ t ↔ coversList l₂ t := by
        intro t
        constructor
        · intro hc
          obtain ⟨r, hr, hrl, hru⟩ := hc
          have hart : a.end_at < r.start_at := chain_lt_start h₁ hv₁ r hr
          have hc₂ : coversList (a :: l₂) t :=
            (hcov t).mp (coversList_cons.mpr (Or.inr ⟨r, hr, hrl, hru⟩))
          rcases coversList_cons.mp hc₂ with ⟨_, hu⟩ | htail
          · exact absurd hu (by omega)
          · exact htail
        · intro hc
          obtain ⟨r, hr, hrl, hru⟩ := hc
          have hart : a.end_at < r.start_at := chain_lt_start h₂ hv₂ r hr
          have hc₁ : coversList (a :: l₁) t :=
            (hcov t).mpr (coversList_cons.mpr (Or.inr ⟨r, hr, hrl, hru⟩))
          rcases coversList_cons.mp hc₁ with ⟨_, hu⟩ | htail
          · exact absurd hu (by omega)
          · exact htail
      rw [ih l₂ (List.Chain'.tail h₁) (List.Chain'.tail h₂) hv₁' hv₂' hcovtail]

theorem separated_pairwise {l : List TimeRangeRequest} (h : Separated l)
    (hv : ValidRanges l) :
    l.Pairwise (fun a b => a.end_at < b.start_at) := by
  induction l with
  | nil => exact List.Pairwise.nil
  | cons a m ih =>
    exact List.pairwise_cons.mpr ⟨chain_lt_start h hv,
      ih (List.Chain'.tail h) (fun r hr => hv r (List.mem_cons_of_mem _ hr))⟩

/-- C5: for every finite list of ranges each satisfying `start < end`, the
output of `merge_time_ranges` is pairwise non-overlapping and non-adjacent
(each range's start strictly greater than every earlier range's end, hence the
list is ordered), and the set of time instants covered by the output equals
the set covered by the input. -/
theorem merge_time_ranges_correct (l : List TimeRangeRequest)
    (hv : ValidRanges l) :
    (merge_time_ranges l).Pairwise (fun a b => a.end_at < b.start_at) ∧
      ∀ t, coversList (merge_time_ranges l) t ↔ coversList l t :=
  ⟨separated_pairwise (merge_separated l) (merge_valid l hv),
    fun t => merge_covers l t⟩

theorem merge_time_ranges_correct_witness :
    ValidRanges [⟨1000, 3000⟩, ⟨2000, 4000⟩] ∧
      (merge_time_ranges [⟨1000, 3000⟩, ⟨2000, 4000⟩]).Pairwise
        (fun a b => a.end_at < b.start_at) ∧
      (coversList (merge_time_ranges [⟨1000, 3000⟩, ⟨2000, 4000⟩]) 3500 ↔
        coversList [⟨1000, 3000⟩, ⟨2000, 4000⟩] 3500) :=
  ⟨by decide, (merge_time_ranges_correct _ (by decide)).1,
    (merge_time_ranges_correct _ (by decide)).2 3500⟩

/-- C7: `merge_time_ranges` is input-order-independent — for every list of
non-degenerate ranges and every permutation of it, merging yields a
value-equal output list (in particular also when several ranges share the
same start). -/
theorem merge_time_ranges_perm_invariant (l₁ l₂ : List TimeRangeRequest)
    (hperm : l₁.Perm l₂) (hv : ValidRanges l₁) :
    merge_time_ranges l₁ = merge_time_ranges l₂ := by
  have hv₂ : ValidRanges l₂ := fun r hr => hv r (hperm.mem_iff.mpr hr)
  refine separated_coverage_unique _ _ (merge_separated l₁) (merge_separated l₂)
    (merge_valid l₁ hv) (merge_valid l₂ hv₂) ?_
  intro t
  rw [merge_covers, merge_covers, coversList_of_perm hperm]

theorem merge_time_ranges_perm_invariant_witness :
    merge_time_ranges [⟨1, 5⟩, ⟨1, 3⟩, ⟨7, 9⟩] =
      merge_time_ranges [⟨7, 9⟩, ⟨1, 3⟩, ⟨1, 5⟩] :=
  merge_time_ranges_perm_invariant _ _ (by decide) (by decide)

/-- C8: `merge_time_ranges` is idempotent on lists of non-degenerate ranges —
`merge (merge X) = merge X` — and an input that is already merged (ordered,
non-overlapping, non-adjacent) is returned unchanged. -/
theorem merge_time_ranges_idempotent (l : List TimeRangeRequest)
    (hv : ValidRanges l) :
    merge_time_ranges (merge_time_ranges l) = merge_time_ranges l ∧
      (Separated l → merge_time_ranges l = l) := by
  have hfix : ∀ m, Separated m → ValidRanges m → merge_time_ranges m = m :=
    fun m hs hvm => separated_coverage_unique _ _ (merge_separated m) hs
      (merge_valid m hvm) hvm (fun t => merge_covers m t)
  exact ⟨hfix _ (merge_separated l) (merge_valid l hv),
    fun hs => hfix l hs hv⟩

theorem merge_time_ranges_idempotent_witness :
    ValidRanges [⟨1000, 2000⟩, ⟨3000, 4000⟩] ∧
      merge_time_ranges (merge_time_ranges [⟨1000, 2000⟩, ⟨3000, 4000⟩]) =
        merge_time_ranges [⟨1000, 2000⟩, ⟨3000, 4000⟩] ∧
      merge_time_ranges [⟨1000, 2000⟩, ⟨3000, 4000⟩] =
        [⟨1000, 2000⟩, ⟨3000, 4000⟩] :=
  ⟨by decide, (merge_time_ranges_idempotent _ (by decide)).1,
    (merge_time_ranges_idempotent _ (by decide)).2 (by decide)⟩

/-! ## Database state and error model

The handlers run against PostgreSQL; the embedding replaces the pool by an
explicit state of table rows.  Only the columns the modelled handlers read or
write are carried.  Row ids and tokens are generated by the database
(`uuid`, sequences, `now()`); the embedding passes them in as explicit
`newId` / `newToken` / `now` parameters. -/

/-- A row of the `events` table (`id`, `public_token`, `organizer_token`,
`state`; the remaining columns — title, description, time_zone,
slot_duration, timestamps — are not read by the modelled logic). -/
structure Event where
  id : Nat
  public_token : String
  organizer_token : String
  state : String
deriving DecidableEq, Repr

/-- A row of the `event_slots` table. -/
structure EventSlot where
  id : Nat
  event_id : Nat
  start_at : Int
  end_at : Int
deriving DecidableEq, Repr

/-- A row of the `participants` table. -/
structure Participant where
  id : Nat
  event_id : Nat
  name : String
  is_organizer : Bool
  comment : Option String
  token : String
  created_at : Int
deriving DecidableEq, Repr

/-- A row of the `availabilities` table. -/
structure Availability where
  participant_id : Nat
  start_at : Int
  end_at : Int
deriving DecidableEq, Repr

/-- The database state seen by the handlers. -/
structure DB where
  events : List Event
  event_slots : List EventSlot
  participants : List Participant
  availabilities : List Availability
deriving DecidableEq, Repr

/-- Enum `AppError` from `error.rs` (the `Database` payload is dropped). -/
inductive AppError where
  | Database
  | NotFound
  | BadRequest (msg : String)
  | ParticipantLimitReached (limit : Int)
deriving DecidableEq, Repr

/-- Method `AppError::code`. -/
def AppError.code : AppError → String
  | .Database => "INTERNAL_SERVER_ERROR"
  | .NotFound => "NOT_FOUND"
  | .BadRequest _ => "BAD_REQUEST"
  | .ParticipantLimitReached _ => "PARTICIPANT_LIMIT_REACHED"

/-- The HTTP status chosen by `impl IntoResponse for AppError`. -/
def AppError.httpStatus : AppError → Nat
  | .Database => 500
  | .NotFound => 404
  | .BadRequest _ => 400
  | .ParticipantLimitReached _ => 400

/-- Query `SELECT ... FROM events WHERE public_token = $1` with `fetch_optional`. -/
def findEventByPublicToken (db : DB) (public_token : String) : Option Event :=
  db.events.find? (fun e => e.public_token == public_token)

/-- Query `SELECT COUNT(*) FROM participants WHERE event_id = $1`. -/
def countParticipants (db : DB) (event_id : Nat) : Nat :=
  (db.participants.filter (fun p => p.event_id == event_id)).length

/-- The participant-name validation shared by `submit_availability` and
`update_participant`: `name.trim().is_empty() || name.len() > 50`.
`trim().is_empty()` holds exactly when every character is whitespace, which is
how it is modelled; Rust's byte length is modelled as character count (they
agree on ASCII). -/
def invalidName (name : String) : Prop :=
  name.toList.all (fun c => c.isWhitespace) = true ∨ name.length > 50

instance (name : String) : Decidable (invalidName name) :=
  inferInstanceAs (Decidable (_ ∨ _))

/-- The comment validation: `if let Some(ref c) = comment && c.len() > 500`. -/
def commentTooLong : Option String → Prop
  | some c => c.length > 500
  | none => False

instance : (o : Option String) → Decidable (commentTooLong o)
  | some c => inferInstanceAs (Decidable (c.length > 500))
  | none => inferInstanceAs (Decidable False)

/-- The body of `SubmitAvailabilityRequest`. -/
structure SubmitAvailabilityRequest where
  participant_name : String
  availabilities : List TimeRangeRequest
  comment : Option String
deriving DecidableEq, Repr

/-- The body of `UpdateParticipantRequest`. -/
structure UpdateParticipantRequest where
  participant_name : String
  comment : Option String
  availabilities : List TimeRangeRequest
deriving DecidableEq, Repr

/-- Handler `submit_availability` (events.rs lines 240–327): validate the name, the
comment and the time ranges; look up the event by its public token (no check
of `state`); reject with `ParticipantLimitReached(10)` when the event already
has 10 or more participants; otherwise always insert a fresh participant row
(duplicate names allowed), delete any availabilities attached to the fresh
row's id, and insert the merged submitted ranges.  `newId`/`newToken` are the
database-generated `RETURNING id, token` values and `now` the row timestamp. -/
def submit_availability (db : DB) (public_token : String)
    (payload : SubmitAvailabilityRequest) (newId : Nat) (newToken : String)
    (now : Int) : Except AppError (DB × String) :=
  if invalidName payload.participant_name then
    .error (.BadRequest
      "Participant name is required and must be less than 50 characters")
  else if commentTooLong payload.comment then
    .error (.BadRequest "Comment must be less than 500 characters")
  else if ∃ r ∈ payload.availabilities, r.end_at ≤ r.start_at then
    .error (.BadRequest "Invalid time range: start must be before end")
  else
    match findEventByPublicToken db public_token with
    | none => .error .NotFound
    | some ev =>
      if countParticipants db ev.id ≥ 10 then
        .error (.ParticipantLimitReached 10)
      else
        let p : Participant :=
          { id := newId, event_id := ev.id, name := payload.participant_name,
            is_organizer := false, comment := payload.comment,
            token := newToken, created_at := now }
        let afterDelete :=
          db.availabilities.filter (fun a => !(a.participant_id == newId))
        let merged := merge_time_ranges payload.availabilities
        .ok ({ db with
          participants := db.participants ++ [p],
          availabilities := afterDelete ++ merged.map (fun r =>
            { participant_id := newId, start_at := r.start_at,
              end_at := r.end_at }) }, newToken)

/-- Handler `update_participant` (events.rs lines 594–679): validate; look up the
event by public token; reject when `state == "closed"`; look up the
participant by token scoped to the event; update its name and comment in
place; replace its availabilities by the merged submitted ranges. -/
def update_participant (db : DB) (public_token participant_token : String)
    (payload : UpdateParticipantRequest) : Except AppError DB :=
  if invalidName payload.participant_name then
    .error (.BadRequest
      "Participant name is required and must be less than 50 characters")
  else if commentTooLong payload.comment then
    .error (.BadRequest "Comment must be less than 500 characters")
  else if ∃ r ∈ payload.availabilities, r.end_at ≤ r.start_at then
    .error (.BadRequest "Invalid time range")
  else
    match findEventByPublicToken db public_token with
    | none => .error .NotFound
    | some ev =>
      if ev.state == "closed" then
        .error (.BadRequest "Cannot update participation for a closed event")
      else
        match db.participants.find? (fun p =>
            p.token == participant_token && p.event_id == ev.id) with
        | none => .error .NotFound
        | some part =>
          let afterUpdate := db.participants.map (fun p =>
            if p.id == part.id then
              { p with name := payload.participant_name, comment := payload.comment }
            else p)
          let afterDelete :=
            db.availabilities.filter (fun a => !(a.participant_id == part.id))
          let merged := merge_time_ranges payload.availabilities
          .ok { db with
            participants := afterUpdate,
            availabilities := afterDelete ++ merged.map (fun r =>
              { participant_id := part.id, start_at := r.start_at,
                end_at := r.end_at }) }

/-! ## Results aggregation (`fetch_event_results_data`) -/

/-- A row of the `participants LEFT JOIN availabilities` query: `range` is
`none` for a participant without availability rows (the join's NULL side),
mirroring the `Option<DateTime<Utc>>` pair of the Rust `Row` struct. -/
structure ResultRow where
  name : String
  is_organizer : Bool
  comment : Option String
  range : Option TimeRangeRequest
deriving DecidableEq, Repr

/-- The per-name accumulator `ParticipantData` of the Rust fold. -/
structure ParticipantData where
  is_organizer : Bool
  comment : Option String
  ranges : List TimeRangeRequest
deriving DecidableEq, Repr

/-- An entry of the output `participants` vector (`ParticipantAvailability`). -/
structure ParticipantAvailability where
  name : String
  is_organizer : Bool
  comment : Option String
  availabilities : List TimeRangeRequest
deriving DecidableEq, Repr

/-- Ordering `ORDER BY p.is_organizer DESC, p.created_at ASC`. -/
def participantOrder (p q : Participant) : Prop :=
  (if p.is_organizer then (0 : Nat) else 1) < (if q.is_organizer then 0 else 1) ∨
    ((if p.is_organizer then (0 : Nat) else 1) = (if q.is_organizer then 0 else 1) ∧
      p.created_at ≤ q.created_at)

instance : DecidableRel participantOrder :=
  fun p q => inferInstanceAs (Decidable (_ ∨ _))

/-- Ordering `ORDER BY a.start_at` within one participant's rows. -/
def availStartLE (a b : Availability) : Prop := a.start_at ≤ b.start_at

instance : DecidableRel availStartLE :=
  fun a b => inferInstanceAs (Decidable (a.start_at ≤ b.start_at))

/-- Ordering `ORDER BY start_at` on event slots. -/
def slotStartLE (a b : EventSlot) : Prop := a.start_at ≤ b.start_at

instance : DecidableRel slotStartLE :=
  fun a b => inferInstanceAs (Decidable (a.start_at ≤ b.start_at))

/-- The join rows contributed by one participant: one row per availability
(ordered by `start_at`), or a single row with a NULL range when the
participant has no availabilities (LEFT JOIN). -/
def participantRows (db : DB) (p : Participant) : List ResultRow :=
  let avails := List.insertionSort availStartLE
    (db.availabilities.filter (fun a => a.participant_id == p.id))
  if avails.isEmpty then
    [⟨p.name, p.is_organizer, p.comment, none⟩]
  else
    avails.map (fun a =>
      ⟨p.name, p.is_organizer, p.comment, some ⟨a.start_at, a.end_at⟩⟩)

/-- The full pre-joined, pre-ordered row sequence of the results query:
participants of the event ordered organizer-first then by creation time, each
contributing its rows consecutively. -/
def resultsRows (db : DB) (event_id : Nat) : List ResultRow :=
  ((List.insertionSort participantOrder
      (db.participants.filter (fun p => p.event_id == event_id))).map
    (participantRows db)).flatten

/-- Operation `participants_map.get_mut(&name).ranges.push(range)`: append a range to
the entry keyed by `name` of the name-keyed map (modelled as an association
list; the Rust code only ever inserts a key it has checked to be absent, so
keys are unique and the association list is a faithful `HashMap` model). -/
def appendRange (m : List (String × ParticipantData)) (name : String)
    (r : TimeRangeRequest) : List (String × ParticipantData) :=
  m.map (fun kv =>
    if kv.1 == name then (kv.1, { kv.2 with ranges := kv.2.ranges ++ [r] })
    else kv)

/-- The Rust fold over the join rows: a name not yet in
`participants_map` is inserted (and recorded in `participant_names`); a
non-NULL range is appended to the entry keyed by the row's `name`. -/
def processRows : List ResultRow → List (String × ParticipantData) →
    List String → List (String × ParticipantData) × List String
  | [], m, names => (m, names)
  | row :: rest, m, names =>
    let step :=
      if (m.find? (fun kv => kv.1 == row.name)).isSome then (m, names)
      else (m ++ [(row.name, ⟨row.is_organizer, row.comment, []⟩)],
        names ++ [row.name])
    match row.range with
    | some r => processRows rest (appendRange step.1 row.name r) step.2
    | none => processRows rest step.1 step.2

/-- Function `fetch_event_results_data` (events.rs lines 329–422): the sorted event
slots, the per-participant output built from `participant_names` in first-seen
order by looking the name up in `participants_map`, and
`total_participants = participants_map.len()`. -/
def fetch_event_results_data (db : DB) (event_id : Nat) :
    List EventSlot × List ParticipantAvailability × Int :=
  let event_slots := List.insertionSort slotStartLE
    (db.event_slots.filter (fun s => s.event_id == event_id))
  let folded := processRows (resultsRows db event_id) [] []
  let participants := folded.2.filterMap (fun name =>
    (folded.1.find? (fun kv => kv.1 == name)).map (fun kv =>
      (⟨name, kv.2.is_organizer, kv.2.comment, kv.2.ranges⟩ :
        ParticipantAvailability)))
  (event_slots, participants, (folded.1.length : Int))

/-! ## Batch status check (`check_events_status`) -/

/-- The body of `BatchCheckStatusRequest`. -/
structure BatchCheckStatusRequest where
  tokens : List String
deriving DecidableEq, Repr

/-- Operation `HashMap::insert` on the `statuses` map, modelled as an association
list: replace the value when the key is present, append otherwise. -/
def insertStatus (m : List (String × String)) (k v : String) :
    List (String × String) :=
  if m.any (fun kv => kv.1 == k) then
    m.map (fun kv => if kv.1 == k then (k, v) else kv)
  else
    m ++ [(k, v)]

/-- Operation `HashMap::get` on the `statuses` map. -/
def lookupStatus (m : List (String × String)) (k : String) : Option String :=
  (m.find? (fun kv => kv.1 == k)).map (fun kv => kv.2)

/-- Handler `check_events_status` (events.rs lines 681–720): more than 50 tokens is a
`BadRequest`; an empty token list returns an empty map without querying the
database; otherwise `SELECT public_token, state FROM events WHERE
public_token = ANY($1)` row results are folded into the map. -/
def check_events_status (db : DB) (payload : BatchCheckStatusRequest) :
    Except AppError (List (String × String)) :=
  if payload.tokens.length > 50 then
    .error (.BadRequest "Too many tokens to check (max 50)")
  else if payload.tokens.isEmpty then
    .ok []
  else
    let rows := db.events.filter (fun e => payload.tokens.contains e.public_token)
    .ok (rows.foldl (fun m e => insertStatus m e.public_token e.state) [])

/-! ## Rate limiter (`RateLimitService::call`) -/

/-- Constant `RATE_LIMIT_DURATION`: 60 seconds. -/
def RATE_LIMIT_DURATION : Nat := 60

/-- Constant `MAX_REQUESTS_PER_DURATION`: 60 requests per window. -/
def MAX_REQUESTS_PER_DURATION : Nat := 60

/-- The fate of one request at the rate limiter: forwarded to the inner
service, or answered `429 Too Many Requests` without invoking it. -/
inductive RateOutcome where
  | forwarded
  | tooManyRequests
deriving DecidableEq, Repr

/-- Lookup `clients.get(&peer_addr)` on the per-client map (association list keyed
by the derived client identity; values are `(last_request_time,
request_count_in_window)`). -/
def lookupClient (clients : List (String × Nat × Nat)) (peer : String) :
    Option (Nat × Nat) :=
  (clients.find? (fun kv => kv.1 == peer)).map (fun kv => kv.2)

/-- The critical section of `RateLimitService::call` (middleware.rs lines
91–121): no record → insert `(now, 1)` and forward; expired window
(`now.duration_since(last) > RATE_LIMIT_DURATION`) → reset to `(now, 1)` and
forward; count at the maximum → reject without touching the record and
without calling the inner service; otherwise increment and forward.
`Instant`s are modelled as `Nat` seconds; `Instant::duration_since`
saturates at zero exactly like `Nat` subtraction. -/
def rateLimitCall (clients : List (String × Nat × Nat)) (peer : String)
    (now : Nat) : List (String × Nat × Nat) × RateOutcome :=
  match clients.find? (fun kv => kv.1 == peer) with
  | some (_, last, count) =>
    if now - last > RATE_LIMIT_DURATION then
      (clients.map (fun kv => if kv.1 == peer then (kv.1, now, 1) else kv),
        .forwarded)
    else if count ≥ MAX_REQUESTS_PER_DURATION then
      (clients, .tooManyRequests)
    else
      (clients.map (fun kv =>
        if kv.1 == peer then (kv.1, last, count + 1) else kv), .forwarded)
  | none => (clients ++ [(peer, now, 1)], .forwarded)

instance {ε α : Type} [DecidableEq ε] [DecidableEq α] :
    DecidableEq (Except ε α) := fun x y =>
  match x, y with
  | .ok a, .ok b => decidable_of_iff (a = b) (by simp)
  | .error a, .error b => decidable_of_iff (a = b) (by simp)
  | .ok _, .error _ => isFalse (by simp)
  | .error _, .ok _ => isFalse (by simp)

/-! ## Concrete database states used to evaluate the handlers -/

/-- An open event whose organizer "Alice" (participant id 1) shares her
display name with a second, distinct guest participant (id 2, its own token
and comment). -/
def duplicateNameDB : DB :=
  { events := [⟨1, "pub", "org", "open"⟩],
    event_slots := [],
    participants :=
      [⟨1, 1, "Alice", true, none, "tA", 0⟩,
       ⟨2, 1, "Alice", false, some "imposter", "tB", 1⟩],
    availabilities := [⟨1, 0, 10⟩, ⟨2, 20, 30⟩] }

/-- An event in state `closed`, with its organizer as sole participant. -/
def closedEventDB : DB :=
  { events := [⟨1, "pub", "org", "closed"⟩],
    event_slots := [],
    participants := [⟨1, 1, "Alice", true, none, "tA", 0⟩],
    availabilities := [] }

/-- An open event with one participant named "Alice". -/
def openAliceDB : DB :=
  { events := [⟨1, "pub", "org", "open"⟩],
    event_slots := [],
    participants := [⟨1, 1, "Alice", true, none, "tA", 0⟩],
    availabilities := [⟨1, 5, 15⟩] }

/-- An open event with exactly 9 participants (one below the cap). -/
def nineEventDB : DB :=
  { events := [⟨1, "pub", "org", "open"⟩],
    event_slots := [],
    participants :=
      [⟨1, 1, "Alice", true, none, "t1", 0⟩,
       ⟨2, 1, "Guest 2", false, none, "t2", 2⟩,
       ⟨3, 1, "Guest 3", false, none, "t3", 3⟩,
       ⟨4, 1, "Guest 4", false, none, "t4", 4⟩,
       ⟨5, 1, "Guest 5", false, none, "t5", 5⟩,
       ⟨6, 1, "Guest 6", false, none, "t6", 6⟩,
       ⟨7, 1, "Guest 7", false, none, "t7", 7⟩,
       ⟨8, 1, "Guest 8", false, none, "t8", 8⟩,
       ⟨9, 1, "Guest 9", false, none, "t9", 9⟩],
    availabilities := [] }

/-- An open event with exactly 10 participants (the cap), one of them named
"Alice". -/
def fullEventDB : DB :=
  { events := [⟨1, "pub", "org", "open"⟩],
    event_slots := [],
    participants :=
      [⟨1, 1, "Alice", true, none, "t1", 0⟩,
       ⟨2, 1, "Guest 2", false, none, "t2", 2⟩,
       ⟨3, 1, "Guest 3", false, none, "t3", 3⟩,
       ⟨4, 1, "Guest 4", false, none, "t4", 4⟩,
       ⟨5, 1, "Guest 5", false, none, "t5", 5⟩,
       ⟨6, 1, "Guest 6", false, none, "t6", 6⟩,
       ⟨7, 1, "Guest 7", false, none, "t7", 7⟩,
       ⟨8, 1, "Guest 8", false, none, "t8", 8⟩,
       ⟨9, 1, "Guest 9", false, none, "t9", 9⟩,
       ⟨10, 1, "Guest 10", false, none, "t10", 10⟩],
    availabilities := [] }

/-- C1: refuted by the code — `fetch_event_results_data` keys its grouping
map by display name (`HashMap<String, ParticipantData>`), so two distinct
participants named "Alice" collapse into one output entry (the guest's
organizer flag, comment and identity are absorbed into the organizer's entry,
whose range list receives both participants' ranges) and `total_participants`
is 1, not 2.  This contradicts the repository's own intent: submission
deliberately allows duplicate names as distinct rows
(`tests/duplicate_name_test.rs`). -/
theorem fetch_event_results_data_dedupes_by_name :
    (fetch_event_results_data duplicateNameDB 1).2.2 = 1 ∧
      (fetch_event_results_data duplicateNameDB 1).2.1 =
        [⟨"Alice", true, none, [⟨0, 10⟩, ⟨20, 30⟩]⟩] := by decide

/-- C2: refuted by the code for the submission path —
`update_participant` rejects a resubmission to a closed event, but
`submit_availability` never reads `Event.state`: on the same closed event it
accepts the write and inserts a new Participant row and its Availability
rows. -/
theorem closed_event_still_accepts_submissions :
    update_participant closedEventDB "pub" "tA" ⟨"Alice", none, [⟨0, 10⟩]⟩ =
      .error (.BadRequest "Cannot update participation for a closed event") ∧
    submit_availability closedEventDB "pub" ⟨"Bob", [⟨0, 10⟩], none⟩ 2 "tB" 1 =
      .ok ({ closedEventDB with
        participants := closedEventDB.participants ++
          [⟨2, 1, "Bob", false, none, "tB", 1⟩],
        availabilities := [⟨2, 0, 10⟩] }, "tB") := by decide

/-- C3 counterexample: a submission whose participant name matches an
existing participant of the event is not an in-place update — on an event
with one participant "Alice", submitting as "Alice" appends a second
Participant row; and on an event at the cap containing an "Alice", the same
name-matching submission is rejected by the cap with
`ParticipantLimitReached(10)`. -/
theorem submit_name_match_not_in_place :
    submit_availability openAliceDB "pub" ⟨"Alice", [], none⟩ 2 "tB" 1 =
      .ok ({ openAliceDB with
        participants := openAliceDB.participants ++
          [⟨2, 1, "Alice", false, none, "tB", 1⟩] }, "tB") ∧
    submit_availability fullEventDB "pub" ⟨"Alice", [], none⟩ 11 "tX" 11 =
      .error (.ParticipantLimitReached 10) := by decide

/-- C3 (amended): `submit_availability` never updates an existing participant
in place — every accepted submission appends exactly one new Participant row,
even when the name matches an existing participant, and the cap check always
runs before the insert; in-place resubmission exists only through
`update_participant` (token match), which leaves the number of Participant
rows unchanged and never consults the participant cap (it cannot fail with
`ParticipantLimitReached`). -/
theorem submit_always_inserts_update_always_in_place :
    (∀ db pt payload newId newToken now db' tok,
      submit_availability db pt payload newId newToken now = .ok (db', tok) →
      db'.participants.length = db.participants.length + 1) ∧
    (∀ db pt ptok payload db',
      update_participant db pt ptok payload = .ok db' →
      db'.participants.length = db.participants.length) ∧
    (∀ db pt ptok payload lim,
      update_participant db pt ptok payload ≠
        .error (.ParticipantLimitReached lim)) := by
  refine ⟨?_, ?_, ?_⟩
  · intro db pt payload newId newToken now db' tok h
    unfold submit_availability at h
    split at h
    · cases h
    split at h
    · cases h
    split at h
    · cases h
    split at h
    · cases h
    split at h
    · cases h
    simp only [Except.ok.injEq, Prod.mk.injEq] at h
    obtain ⟨hdb, -⟩ := h
    subst hdb
    simp
  · intro db pt ptok payload db' h
    unfold update_participant at h
    split at h
    · cases h
    split at h
    · cases h
    split at h
    · cases h
    split at h
    · cases h
    split at h
    · cases h
    split at h
    · cases h
    simp only [Except.ok.injEq] at h
    subst h
    simp
  · intro db pt ptok payload lim h
    unfold update_participant at h
    split at h
    · simp at h
    split at h
    · simp at h
    split at h
    · simp at h
    split at h
    · simp at h
    split at h
    · simp at h
    split at h
    · simp at h
    simp at h

theorem submit_always_inserts_update_always_in_place_witness :
    ({ openAliceDB with participants := openAliceDB.participants ++
        [⟨2, 1, "Carol", false, none, "tC", 3⟩] } : DB).participants.length =
      openAliceDB.participants.length + 1 :=
  submit_always_inserts_update_always_in_place.1 openAliceDB "pub"
    ⟨"Carol", [], none⟩ 2 "tC" 3 _ "tC" (by decide)

/-- C6: with the event found by its public token and the payload passing
validation, a submission to an event with exactly 9 (= max−1) participants
succeeds, while one to an event with exactly 10 (= max) participants fails
before any insert with `ParticipantLimitReached(10)`, surfaced as HTTP 400
with error code `PARTICIPANT_LIMIT_REACHED`. -/
theorem participant_cap_boundary (db : DB) (pt : String)
    (payload : SubmitAvailabilityRequest) (newId : Nat) (newToken : String)
    (now : Int) (ev : Event)
    (hname : ¬ invalidName payload.participant_name)
    (hcomment : ¬ commentTooLong payload.comment)
    (hranges : ¬ ∃ r ∈ payload.availabilities, r.end_at ≤ r.start_at)
    (hev : findEventByPublicToken db pt = some ev) :
    (countParticipants db ev.id = 9 →
      ∃ db', submit_availability db pt payload newId newToken now =
        .ok (db', newToken)) ∧
    (countParticipants db ev.id = 10 →
      submit_availability db pt payload newId newToken now =
        .error (.ParticipantLimitReached 10) ∧
      AppError.code (.ParticipantLimitReached 10) = "PARTICIPANT_LIMIT_REACHED" ∧
      AppError.httpStatus (.ParticipantLimitReached 10) = 400) := by
  constructor
  · intro h9
    unfold submit_availability
    simp only [if_neg hname, if_neg hcomment, if_neg hranges, hev]
    rw [if_neg (by omega)]
    exact ⟨_, rfl⟩
  · intro h10
    refine ⟨?_, rfl, rfl⟩
    unfold submit_availability
    simp only [if_neg hname, if_neg hcomment, if_neg hranges, hev]
    rw [if_pos (by omega)]

theorem participant_cap_boundary_witness :
    (∃ db', submit_availability nineEventDB "pub" ⟨"Guest 10", [], none⟩
      10 "new10" 10 = .ok (db', "new10")) ∧
    submit_availability fullEventDB "pub" ⟨"Guest 11", [], none⟩
      11 "new11" 11 = .error (.ParticipantLimitReached 10) :=
  ⟨(participant_cap_boundary nineEventDB "pub" ⟨"Guest 10", [], none⟩ 10
      "new10" 10 ⟨1, "pub", "org", "open"⟩ (by decide) (by decide) (by decide)
      (by decide)).1 (by decide),
    ((participant_cap_boundary fullEventDB "pub" ⟨"Guest 11", [], none⟩ 11
      "new11" 11 ⟨1, "pub", "org", "open"⟩ (by decide) (by decide) (by decide)
      (by decide)).2 (by decide)).1⟩

/-- C10: a submission with a valid name and comment and an empty
availabilities list is not a validation error: it succeeds, appends exactly
one new Participant row, and stores zero availability ranges for it —
`merge_time_ranges` of the empty list being the empty list. -/
theorem submit_empty_availabilities (db : DB) (pt : String) (name : String)
    (comment : Option String) (newId : Nat) (newToken : String) (now : Int)
    (ev : Event)
    (hname : ¬ invalidName name)
    (hcomment : ¬ commentTooLong comment)
    (hev : findEventByPublicToken db pt = some ev)
    (hcount : countParticipants db ev.id < 10) :
    ∃ db', submit_availability db pt ⟨name, [], comment⟩ newId newToken now =
        .ok (db', newToken) ∧
      db'.participants = db.participants ++
        [⟨newId, ev.id, name, false, comment, newToken, now⟩] ∧
      db'.availabilities.filter (fun a => a.participant_id == newId) = [] ∧
      merge_time_ranges [] = [] := by
  unfold submit_availability
  simp only [if_neg hname, if_neg hcomment, hev]
  rw [if_neg (by simp), if_neg (by omega)]
  refine ⟨_, rfl, rfl, ?_, rfl⟩
  have hmerge : merge_time_ranges ([] : List TimeRangeRequest) = [] := rfl
  rw [hmerge]
  simp only [List.map_nil, List.append_nil, List.filter_filter]
  apply List.filter_eq_nil_iff.mpr
  intro a _
  simp

theorem submit_empty_availabilities_witness :
    ∃ db', submit_availability openAliceDB "pub" ⟨"Dave", [], some "hi"⟩
        2 "tD" 4 = .ok (db', "tD") ∧
      db'.participants = openAliceDB.participants ++
        [⟨2, 1, "Dave", false, some "hi", "tD", 4⟩] ∧
      db'.availabilities.filter (fun a => a.participant_id == 2) = [] ∧
      merge_time_ranges [] = [] :=
  submit_empty_availabilities openAliceDB "pub" "Dave" (some "hi") 2 "tD" 4
    ⟨1, "pub", "org", "open"⟩ (by decide) (by decide) (by decide) (by decide)

theorem find?_map_update (clients : List (String × Nat × Nat)) (peer : String)
    (v : Nat × Nat) :
    (clients.map (fun kv => if kv.1 == peer then (kv.1, v) else kv)).find?
        (fun kv => kv.1 == peer) =
      (clients.find? (fun kv => kv.1 == peer)).map (fun kv => (kv.1, v)) := by
  induction clients with
  | nil => rfl
  | cons kv rest ih =>
    rw [List.map_cons]
    by_cases h : (kv.1 == peer) = true
    · rw [if_pos h]
      simp [List.find?_cons, h]
    · rw [if_neg h]
      simp only [Bool.not_eq_true] at h
      simp only [List.find?_cons, h]
      exact ih

theorem lookupClient_update (clients : List (String × Nat × Nat))
    (peer : String) (v : Nat × Nat) :
    lookupClient (clients.map (fun kv => if kv.1 == peer then (kv.1, v) else kv))
        peer = (lookupClient clients peer).map (fun _ => v) := by
  unfold lookupClient
  rw [find?_map_update]
  cases clients.find? (fun kv => kv.1 == peer) <;> rfl

theorem lookupClient_append_fresh (clients : List (String × Nat × Nat))
    (peer : String) (v : Nat × Nat)
    (h : clients.find? (fun kv => kv.1 == peer) = none) :
    lookupClient (clients ++ [(peer, v)]) peer = some v := by
  unfold lookupClient
  rw [List.find?_append, h]
  simp [List.find?_cons]

/-- C4: one step of the per-client rate limiter.  With no record for the
client identity, a record `(now, 1)` is created and the request is forwarded;
with a record whose window has expired (`now − last > RATE_LIMIT_DURATION`),
the record is reset to `(now, 1)` and the request is forwarded; within the
window with a count below the maximum, the count is incremented and the
request is forwarded; within the window with the count at the maximum, the
request is answered with the rate-limited signal, the whole map is left
untouched (no increment), and the inner service is not invoked
(`RateOutcome.tooManyRequests` is returned instead of forwarding). -/
theorem rate_limiter_step (clients : List (String × Nat × Nat))
    (peer : String) (now : Nat) :
    (lookupClient clients peer = none →
      rateLimitCall clients peer now =
        (clients ++ [(peer, now, 1)], .forwarded) ∧
      lookupClient (rateLimitCall clients peer now).1 peer = some (now, 1)) ∧
    (∀ last count, lookupClient clients peer = some (last, count) →
      (now - last > RATE_LIMIT_DURATION →
        (rateLimitCall clients peer now).2 = .forwarded ∧
        lookupClient (rateLimitCall clients peer now).1 peer = some (now, 1)) ∧
      (now - last ≤ RATE_LIMIT_DURATION → count < MAX_REQUESTS_PER_DURATION →
        (rateLimitCall clients peer now).2 = .forwarded ∧
        lookupClient (rateLimitCall clients peer now).1 peer =
          some (last, count + 1)) ∧
      (now - last ≤ RATE_LIMIT_DURATION → count ≥ MAX_REQUESTS_PER_DURATION →
        rateLimitCall clients peer now = (clients, .tooManyRequests))) := by
  constructor
  · intro hnone
    have hfind : clients.find? (fun kv => kv.1 == peer) = none := by
      unfold lookupClient at hnone
      exact Option.map_eq_none'.mp hnone
    have hcall : rateLimitCall clients peer now =
        (clients ++ [(peer, now, 1)], .forwarded) := by
      unfold rateLimitCall
      rw [hfind]
    refine ⟨hcall, ?_⟩
    rw [hcall]
    exact lookupClient_append_fresh clients peer (now, 1) hfind
  · intro last count hsome
    obtain ⟨kv, hfind, hkv⟩ : ∃ kv, clients.find? (fun e => e.1 == peer) = some kv ∧
        kv.2 = (last, count) := by
      unfold lookupClient at hsome
      exact Option.map_eq_some'.mp hsome
    obtain ⟨k, kv2⟩ := kv
    simp only at hkv
    subst hkv
    refine ⟨?_, ?_, ?_⟩
    · intro hexp
      have hcall : rateLimitCall clients peer now =
          (clients.map (fun kv => if kv.1 == peer then (kv.1, now, 1) else kv),
            .forwarded) := by
        simp only [rateLimitCall, hfind]
        rw [if_pos hexp]
      rw [hcall]
      refine ⟨rfl, ?_⟩
      rw [lookupClient_update clients peer (now, 1), hsome]
      rfl
    · intro hin hlt
      have hcall : rateLimitCall clients peer now =
          (clients.map (fun kv =>
            if kv.1 == peer then (kv.1, last, count + 1) else kv),
            .forwarded) := by
        simp only [rateLimitCall, hfind]
        rw [if_neg (by omega), if_neg (by omega)]
      rw [hcall]
      refine ⟨rfl, ?_⟩
      rw [lookupClient_update clients peer (last, count + 1), hsome]
      rfl
    · intro hin hge
      simp only [rateLimitCall, hfind]
      rw [if_neg (by omega), if_pos (by omega)]

theorem rate_limiter_step_witness :
    rateLimitCall [] "203.0.113.195" 5 =
      ([("203.0.113.195", 5, 1)], .forwarded) ∧
    rateLimitCall [("1.2.3.4", 0, 60)] "1.2.3.4" 30 =
      ([("1.2.3.4", 0, 60)], .tooManyRequests) :=
  ⟨((rate_limiter_step [] "203.0.113.195" 5).1 (by decide)).1,
    ((rate_limiter_step [("1.2.3.4", 0, 60)] "1.2.3.4" 30).2 0 60
      (by decide)).2.2 (by decide) (by decide)⟩

theorem event_token_unique {l : List Event}
    (h : l.Pairwise (fun e₁ e₂ => e₁.public_token ≠ e₂.public_token)) :
    ∀ x ∈ l, ∀ y ∈ l, x.public_token = y.public_token → x = y := by
  induction l with
  | nil =>
    intro x hx
    exact absurd hx (List.not_mem_nil x)
  | cons a m ih =>
    intro x hx y hy hxy
    rcases List.mem_cons.mp hx with rfl | hx' <;>
      rcases List.mem_cons.mp hy with rfl | hy'
    · rfl
    · exact absurd hxy ((List.pairwise_cons.mp h).1 y hy')
    · exact absurd hxy.symm ((List.pairwise_cons.mp h).1 x hx')
    · exact ih (List.pairwise_cons.mp h).2 x hx' y hy' hxy

theorem foldl_insertStatus_fresh :
    ∀ (rows : List Event) (m₀ : List (String × String)),
      (∀ e ∈ rows, ∀ kv ∈ m₀, kv.1 ≠ e.public_token) →
      rows.Pairwise (fun e₁ e₂ => e₁.public_token ≠ e₂.public_token) →
      rows.foldl (fun m e => insertStatus m e.public_token e.state) m₀ =
        m₀ ++ rows.map (fun e => (e.public_token, e.state)) := by
  intro rows
  induction rows with
  | nil =>
    intro m₀ _ _
    simp
  | cons e rest ih =>
    intro m₀ hfresh hpw
    have hnot : ¬ (m₀.any (fun kv => kv.1 == e.public_token) = true) := by
      rw [List.any_eq_true]
      rintro ⟨kv, hkv, hbeq⟩
      exact hfresh e (List.mem_cons_self _ _) kv hkv (beq_iff_eq.mp hbeq)
    have hins : insertStatus m₀ e.public_token e.state =
        m₀ ++ [(e.public_token, e.state)] := by
      unfold insertStatus
      rw [if_neg hnot]
    have hf : ∀ e' ∈ rest, ∀ kv ∈ m₀ ++ [(e.public_token, e.state)],
        kv.1 ≠ e'.public_token := by
      intro e' he' kv hkv
      rcases List.mem_append.mp hkv with hkv' | hkv'
      · exact hfresh e' (List.mem_cons_of_mem _ he') kv hkv'
      · have hkveq : kv = (e.public_token, e.state) := by
          simpa using hkv'
        subst hkveq
        exact (List.pairwise_cons.mp hpw).1 e' he'
    rw [List.foldl_cons, hins, ih _ hf (List.pairwise_cons.mp hpw).2]
    simp

theorem lookupStatus_map_rows (rows : List Event) (k : String) :
    lookupStatus (rows.map (fun e => (e.public_token, e.state))) k =
      (rows.find? (fun e => e.public_token == k)).map (fun e => e.state) := by
  induction rows with
  | nil => rfl
  | cons e rest ih =>
    by_cases h : (e.public_token == k) = true
    · simp only [lookupStatus, List.map_cons, List.find?_cons, h]
      rfl
    · simp only [Bool.not_eq_true] at h
      simp only [lookupStatus, List.map_cons, List.find?_cons, h]
      exact ih

/-- C9: for a batch status-check request with at most 50 tokens (over a
database whose events have pairwise-distinct public tokens, the schema's
uniqueness constraint), `check_events_status` succeeds with a map whose keys
are exactly the requested tokens naming an existing event, each mapped to
that event's state; a token matching no event is silently absent and never
produces a `NotFound` error; and an empty token list yields an empty map for
every database state (the handler returns before querying persistence). -/
theorem check_events_status_spec (db : DB) (payload : BatchCheckStatusRequest)
    (hlen : payload.tokens.length ≤ 50)
    (huniq : db.events.Pairwise
      (fun e₁ e₂ => e₁.public_token ≠ e₂.public_token)) :
    ∃ m, check_events_status db payload = .ok m ∧
      (∀ tok st, lookupStatus m tok = some st ↔
        (tok ∈ payload.tokens ∧
          ∃ e ∈ db.events, e.public_token = tok ∧ e.state = st)) ∧
      (payload.tokens = [] → m = []) := by
  unfold check_events_status
  rw [if_neg (by omega)]
  by_cases hempty : payload.tokens.isEmpty = true
  · rw [if_pos hempty]
    refine ⟨[], rfl, ?_, fun _ => rfl⟩
    intro tok st
    constructor
    · intro h
      exact absurd h (by simp [lookupStatus])
    · rintro ⟨htok, -⟩
      have hnil : payload.tokens = [] := by
        simpa using hempty
      rw [hnil] at htok
      exact absurd htok (List.not_mem_nil _)
  · rw [if_neg hempty]
    have hdist : (db.events.filter
        (fun e => payload.tokens.contains e.public_token)).Pairwise
        (fun e₁ e₂ => e₁.public_token ≠ e₂.public_token) :=
      huniq.sublist (List.filter_sublist _)
    have hfold := foldl_insertStatus_fresh
      (db.events.filter (fun e => payload.tokens.contains e.public_token)) []
      (by intro e _ kv hkv; exact absurd hkv (List.not_mem_nil kv)) hdist
    simp only [hfold, List.nil_append]
    refine ⟨_, rfl, ?_, ?_⟩
    · intro tok st
      rw [lookupStatus_map_rows]
      constructor
      · intro h
        obtain ⟨e', hfind, hst⟩ := Option.map_eq_some'.mp h
        have hmem := List.mem_of_find?_eq_some hfind
        have hpred := List.find?_some hfind
        have htokeq : e'.public_token = tok := beq_iff_eq.mp hpred
        obtain ⟨hev, hcont⟩ := List.mem_filter.mp hmem
        refine ⟨?_, e', hev, htokeq, hst⟩
        rw [← htokeq]
        simpa using hcont
      · rintro ⟨htok, e, hev, htokeq, hst⟩
        have hemem : e ∈ db.events.filter
            (fun e => payload.tokens.contains e.public_token) := by
          rw [List.mem_filter]
          exact ⟨hev, by rw [htokeq]; simpa using htok⟩
        rcases hfind : (db.events.filter
            (fun e => payload.tokens.contains e.public_token)).find?
            (fun e => e.public_token == tok) with _ | e''
        · rw [List.find?_eq_none] at hfind
          exact absurd (by rw [htokeq]; exact beq_self_eq_true tok)
            (hfind e hemem)
        · have hmem'' := List.mem_of_find?_eq_some hfind
          have hpred'' := List.find?_some hfind
          have he'' : e'' = e := event_token_unique huniq e''
            (List.mem_of_mem_filter hmem'') e
            (List.mem_of_mem_filter hemem)
            (by rw [beq_iff_eq.mp hpred'', htokeq])
          rw [hfind, Option.map_some', he'', hst]
    · intro hnil
      rw [hnil] at hempty
      exact absurd rfl hempty

theorem check_events_status_spec_witness :
    ∃ m, check_events_status openAliceDB ⟨["pub", "missing"]⟩ = .ok m ∧
      (∀ tok st, lookupStatus m tok = some st ↔
        (tok ∈ ["pub", "missing"] ∧
          ∃ e ∈ openAliceDB.events, e.public_token = tok ∧ e.state = st)) ∧
      (["pub", "missing"] = ([] : List String) → m = []) :=
  check_events_status_spec openAliceDB ⟨["pub", "missing"]⟩ (by decide)
    (by simp [openAliceDB])

end AgreedTime
